import Mathlib

/-!
Verification of the learner-mode step-matching and insertion-guidance engine
of the ZephryusNew lesson workspace.

Strings are modelled as `List Char` (JS strings are sequences of code units;
every operation used by the engine — trim, startsWith, endsWith, indexOf,
slice, split, includes, whitespace removal — is positional, so a list of
characters is a faithful model).

The embedded definitions follow, line by line:
  - `src/components/LessonWorkspace.tsx`
      `initializeLearnerMode` (the step filter),
      `getInsertionLineIndex` (the insertion locator),
      the real-time validation effect (the progress tracker),
      the scroll-target computation (`handleLocateInsertion` and the
      scroll-on-step-change effect, with `LINE_HEIGHT = 24`),
  - `src/services/geminiService.ts`
      `generateLearnerSteps` (the catch-branch fallback).
-/

namespace Zephyrus

/-- JS whitespace class `\s` restricted to the ASCII whitespace characters
(space, tab, newline, carriage return, vertical tab, form feed); the same
class backs `String.prototype.trim`. -/
def isWS (c : Char) : Bool :=
  c == ' ' || c == '\t' || c == '\n' || c == '\r' || c == '\x0b' || c == '\x0c'

/-- Model of `text.replace(/\s+/g, '')`: removing every whitespace run removes
exactly the whitespace characters. -/
def normalize (s : List Char) : List Char :=
  s.filter (fun c => !isWS c)

/-- Model of `text.trim()`: drop whitespace from both ends. -/
def trim (s : List Char) : List Char :=
  ((s.dropWhile isWS).reverse.dropWhile isWS).reverse

/-- Model of `s.startsWith(pat)`. -/
def startsWith : List Char → List Char → Bool
  | _, [] => true
  | [], _ :: _ => false
  | c :: s, p :: ps => c == p && startsWith s ps

/-- Model of `s.endsWith(pat)`. -/
def endsWith (s pat : List Char) : Bool :=
  startsWith s.reverse pat.reverse

/-- Model of `s.indexOf(pat)`: offset of the leftmost occurrence of `pat` in `s`,
`none` when absent (JS returns `-1`). -/
def indexOf? (pat : List Char) : List Char → Option Nat
  | [] => if startsWith [] pat then some 0 else none
  | c :: t =>
    if startsWith (c :: t) pat then some 0
    else (indexOf? pat t).map (· + 1)

/-- Model of `s.includes(pat)`. -/
def includes (s pat : List Char) : Bool :=
  (indexOf? pat s).isSome

/-- Predicate: `pat` occurs in `s` at offset `i`. -/
def occursAt (pat s : List Char) (i : Nat) : Bool :=
  startsWith (s.drop i) pat

/-- Model of `s.split('\n')`. -/
def splitOnNL : List Char → List (List Char)
  | [] => [[]]
  | c :: t =>
    if c == '\n' then [] :: splitOnNL t
    else
      match splitOnNL t with
      | [] => [[c]]
      | l :: ls => (c :: l) :: ls

/-- Number of newline characters in `s`. -/
def countNL (s : List Char) : Nat :=
  s.count '\n'

/-- One unit of guided progress (`LearnerStep` in `types`): a target code
fragment, an explanation, and an optional context anchor
(`context?: string`). -/
structure LearnerStep where
  code : List Char
  explanation : List Char
  context : Option (List Char) := none
deriving DecidableEq, Repr

/-- The step-filter predicate of `initializeLearnerMode`
(`LessonWorkspace.tsx` lines 84-92): a step is kept unless its trimmed code
is empty, starts with an HTML comment opener or ends with an HTML comment
closer, or starts with a JS/CSS comment opener. -/
def stepSurvives (s : LearnerStep) : Bool :=
  let trimmed := trim s.code
  if trimmed.length == 0 then false
  else if startsWith trimmed ("<!--".data) || endsWith trimmed ("-->".data) then false
  else if startsWith trimmed ("//".data) || startsWith trimmed ("/*".data) then false
  else true

/-- Model of `steps.filter(s => ...)` in `initializeLearnerMode`. -/
def filterSteps (steps : List LearnerStep) : List LearnerStep :=
  steps.filter stepSurvives

/-- The insertion-hint sentinel `'<!-- Write code here -->'`. -/
def INSERTION_MARKER : List Char :=
  "<!-- Write code here -->".data

/-- The marker/default tail of `getInsertionLineIndex`
(`LessonWorkspace.tsx` lines 112-114): if the sentinel occurs at offset
`m`, return `code.slice(0, m).split('\n').length - 1`; otherwise return
`code.split('\n').length`. Returns `Int` because the source subtracts 1. -/
def markerOrDefault (buffer : List Char) : Int :=
  match indexOf? INSERTION_MARKER buffer with
  | some m => ((splitOnNL (buffer.take m)).length : Int) - 1
  | none => ((splitOnNL buffer).length : Int)

/-- Model of `getInsertionLineIndex` (`LessonWorkspace.tsx` lines 101-115), for a
present current step: empty buffer gives 0; a truthy (non-empty) context is
trimmed and searched in the buffer, and on a hit at offset `idx` the result
is `code.slice(0, idx + step.context.length).split('\n').length` — note the
untrimmed `step.context.length`; otherwise the marker/default tail runs. -/
def getInsertionLineIndex (buffer : List Char) (step : LearnerStep) : Int :=
  if buffer.isEmpty then 0
  else
    match step.context with
    | some ctx =>
      if !ctx.isEmpty then
        match indexOf? (trim ctx) buffer with
        | some idx => ((splitOnNL (buffer.take (idx + ctx.length))).length : Int)
        | none => markerOrDefault buffer
      else markerOrDefault buffer
    | none => markerOrDefault buffer

/-- Whether the context branch of `getInsertionLineIndex` fires for a
non-empty buffer: the step's context is truthy and its trimmed text occurs
in the buffer. -/
def ctxApplies (buffer : List Char) : Option (List Char) → Bool
  | none => false
  | some ctx => !ctx.isEmpty && (indexOf? (trim ctx) buffer).isSome

/-- Outcome of one run of the real-time validation effect: the new step
index, whether the "advanced" feedback fired, and whether the terminal
completion (`setCheckResult`/`onComplete`) fired. -/
structure EvalResult where
  index : Nat
  advanced : Bool
  completed : Bool
deriving DecidableEq, Repr

/-- One run of the real-time validation effect (`LessonWorkspace.tsx` lines
132-149) with learner mode active: a terminal index returns unchanged;
otherwise the whitespace-normalized buffer is tested for containment of the
whitespace-normalized current step code, and a hit increments the index and
reports completion exactly when the new index reaches the step count. -/
def evalBuffer (steps : List LearnerStep) (idx : Nat) (buffer : List Char) :
    EvalResult :=
  if h : idx < steps.length then
    let target := steps.get ⟨idx, h⟩
    if includes (normalize buffer) (normalize target.code) then
      { index := idx + 1, advanced := true,
        completed := decide (steps.length ≤ idx + 1) }
    else
      { index := idx, advanced := false, completed := false }
  else
    { index := idx, advanced := false, completed := false }

/-- Final index after a sequence of buffer-change evaluations with a fixed
step list. -/
def runEval (steps : List LearnerStep) : Nat → List (List Char) → Nat
  | idx, [] => idx
  | idx, b :: bs => runEval steps (evalBuffer steps idx b).index bs

/-- Number of terminal-completion events fired along a sequence of
buffer-change evaluations. -/
def runCompletions (steps : List LearnerStep) : Nat → List (List Char) → Nat
  | _, [] => 0
  | idx, b :: bs =>
    (if (evalBuffer steps idx b).completed then 1 else 0) +
      runCompletions steps (evalBuffer steps idx b).index bs

/-- Constant `LINE_HEIGHT` (`LessonWorkspace.tsx` line 15). -/
def LINE_HEIGHT : Int := 24

/-- The scroll-offset computation shared by the scroll-on-step-change effect
and `handleLocateInsertion`: `top = line * LINE_HEIGHT + 24` and the target
is `Math.max(0, top - containerHeight / 2)`. -/
def scrollTop (line containerHeight : Int) : Int :=
  max 0 ((line * LINE_HEIGHT + 24) - containerHeight / 2)

/-- The spec formula for the scroll target, written from its words:
`max(0, topPadding + lineIndex*lineHeight - viewportHeight/2)`. -/
def scrollTargetSpec (lineIndex lineHeight topPadding viewportHeight : Int) : Int :=
  max 0 (topPadding + lineIndex * lineHeight - viewportHeight / 2)

/-- The catch-branch fallback of `generateLearnerSteps`
(`geminiService.ts` lines 289-294): one step per line of the solution code
whose trimmed content is non-empty, carrying the original line and a
generic explanation, with no context. -/
def fallbackSteps (code : List Char) : List LearnerStep :=
  ((splitOnNL code).filter (fun l => !(trim l).isEmpty)).map
    (fun l => { code := l, explanation := "Type this line.".data, context := none })

theorem startsWith_nil_iff (pat : List Char) :
    startsWith [] pat = true ↔ pat = [] := by
  cases pat <;> simp [startsWith]

theorem splitOnNL_ne_nil (s : List Char) : splitOnNL s ≠ [] := by
  cases s with
  | nil => simp [splitOnNL]
  | cons c t =>
    simp only [splitOnNL]
    split
    · simp
    · split
      · simp
      · simp

theorem splitOnNL_length (s : List Char) :
    (splitOnNL s).length = countNL s + 1 := by
  induction s with
  | nil => simp [splitOnNL, countNL]
  | cons c t ih =>
    simp only [splitOnNL, countNL, List.count_cons] at *
    by_cases hc : c = '\n'
    · subst hc
      simp [ih]
    · have hc' : (c == '\n') = false := by simp [hc]
      rw [hc']
      simp only [if_false, Bool.false_eq_true]
      rcases h : splitOnNL t with _ | ⟨l, ls⟩
      · exact absurd h (splitOnNL_ne_nil t)
      · rw [h] at ih
        simp at ih ⊢
        omega

theorem filter_idem {α : Type} (p : α → Bool) (l : List α) :
    (l.filter p).filter p = l.filter p := by
  induction l with
  | nil => rfl
  | cons a t ih =>
    by_cases h : p a <;> simp [List.filter_cons, h, ih]

theorem stepSurvives_iff (s : LearnerStep) :
    stepSurvives s = true ↔
      (trim s.code ≠ [] ∧
        startsWith (trim s.code) ("<!--".data) = false ∧
        endsWith (trim s.code) ("-->".data) = false ∧
        startsWith (trim s.code) ("//".data) = false ∧
        startsWith (trim s.code) ("/*".data) = false) := by
  simp only [stepSurvives]
  cases h1 : ((trim s.code).length == 0) <;>
    cases h2 : startsWith (trim s.code) ("<!--".data) <;>
    cases h3 : endsWith (trim s.code) ("-->".data) <;>
    cases h4 : startsWith (trim s.code) ("//".data) <;>
    cases h5 : startsWith (trim s.code) ("/*".data) <;>
    simp_all [List.length_eq_zero]

/-- Claim C2: applying the step filter twice yields the same list as applying
it once, for every input sequence of step descriptors. -/
theorem filterSteps_idempotent (steps : List LearnerStep) :
    filterSteps (filterSteps steps) = filterSteps steps :=
  filter_idem stepSurvives steps

/-- Claim C3: a step survives filtering iff its trimmed code is non-empty,
does not start with the markup-comment opener, does not end with the
markup-comment closer, and does not start with the line-comment or
block-comment opener; survivors keep their relative order (the output is a
sublist of the input). -/
theorem filterSteps_membership (steps : List LearnerStep) (s : LearnerStep) :
    List.Sublist (filterSteps steps) steps ∧
      (s ∈ filterSteps steps ↔
        s ∈ steps ∧ trim s.code ≠ [] ∧
          startsWith (trim s.code) ("<!--".data) = false ∧
          endsWith (trim s.code) ("-->".data) = false ∧
          startsWith (trim s.code) ("//".data) = false ∧
          startsWith (trim s.code) ("/*".data) = false) := by
  refine ⟨List.filter_sublist _, ?_⟩
  rw [filterSteps, List.mem_filter, stepSurvives_iff]

/-- Claim C8: the computed scroll offset is
`max(0, topPadding + lineIndex*lineHeight - viewportHeight/2)` with the
code's `lineHeight = LINE_HEIGHT = 24` and `topPadding = 24`; in particular
the spec formula at `(10, 24, 24, 600)` gives `0`. -/
theorem scrollTop_matches_spec (line h : Int) :
    scrollTop line h = scrollTargetSpec line 24 24 h ∧
      scrollTargetSpec 10 24 24 600 = 0 := by
  constructor
  · unfold scrollTop scrollTargetSpec LINE_HEIGHT
    congr 1
    ring
  · decide

/-- Claim C9: when the external step-generation call fails, the fallback
yields one step per line of the reference solution whose trimmed content is
non-empty, in original line order (the projection to `code` is exactly the
filtered line list), each carrying the original line, the generic
explanation, and no context. -/
theorem fallbackSteps_shape (code : List Char) (s : LearnerStep)
    (hs : s ∈ fallbackSteps code) :
    (fallbackSteps code).map (fun t => t.code) =
        (splitOnNL code).filter (fun l => !(trim l).isEmpty) ∧
      s.context = none ∧ s.explanation = "Type this line.".data ∧
      trim s.code ≠ [] := by
  constructor
  · simp [fallbackSteps, List.map_map, Function.comp_def]
  · simp only [fallbackSteps, List.mem_map, List.mem_filter] at hs
    obtain ⟨l, ⟨hl1, hl2⟩, rfl⟩ := hs
    refine ⟨rfl, rfl, ?_⟩
    simpa using hl2

theorem fallbackSteps_shape_witness :
    (({ code := "a".data, explanation := "Type this line.".data,
          context := none } : LearnerStep) ∈ fallbackSteps "a\n\n b".data) ∧
      ({ code := "a".data, explanation := "Type this line.".data,
          context := none } : LearnerStep).context = none :=
  ⟨by decide, (fallbackSteps_shape "a\n\n b".data _ (by decide)).2.1⟩

theorem indexOf?_leftmost (pat : List Char) :
    ∀ (s : List Char) (i : Nat), indexOf? pat s = some i →
      occursAt pat s i = true ∧ ∀ j, j < i → occursAt pat s j = false := by
  intro s
  induction s with
  | nil =>
    intro i h
    simp only [indexOf?] at h
    by_cases hsw : startsWith [] pat = true
    · rw [if_pos hsw] at h
      cases h
      exact ⟨by simpa [occursAt] using hsw, fun j hj => absurd hj (by omega)⟩
    · rw [if_neg hsw] at h
      cases h
  | cons c t ih =>
    intro i h
    simp only [indexOf?] at h
    by_cases hsw : startsWith (c :: t) pat = true
    · rw [if_pos hsw] at h
      cases h
      exact ⟨by simpa [occursAt] using hsw, fun j hj => absurd hj (by omega)⟩
    · rw [if_neg hsw] at h
      rcases ho : indexOf? pat t with _ | i'
      · rw [ho] at h
        simp at h
      · rw [ho] at h
        simp only [Option.map_some', Option.some.injEq] at h
        subst h
        obtain ⟨h1, h2⟩ := ih i' ho
        refine ⟨by simpa [occursAt] using h1, ?_⟩
        intro j hj
        cases j with
        | zero =>
          simp only [occursAt, List.drop_zero]
          exact Bool.eq_false_iff.mpr (fun hc => hsw hc)
        | succ j' =>
          simpa [occursAt] using h2 j' (by omega)

theorem markerOrDefault_nonneg (buffer : List Char) :
    0 ≤ markerOrDefault buffer := by
  unfold markerOrDefault
  split
  · rw [splitOnNL_length]
    push_cast
    omega
  · rw [splitOnNL_length]
    push_cast
    omega

theorem getInsertionLineIndex_nonneg (buffer : List Char) (step : LearnerStep) :
    0 ≤ getInsertionLineIndex buffer step := by
  unfold getInsertionLineIndex
  by_cases hb : buffer.isEmpty
  · simp [hb]
  · rw [if_neg hb]
    cases hctx : step.context with
    | none => exact markerOrDefault_nonneg buffer
    | some ctx =>
      by_cases hc : ctx.isEmpty
      · simp only [hc, Bool.not_true, Bool.false_eq_true, if_false]
        exact markerOrDefault_nonneg buffer
      · simp only [Bool.not_eq_true'] at hc
        simp only [hc, Bool.not_false, if_true]
        rcases hio : indexOf? (trim ctx) buffer with _ | idx
        · exact markerOrDefault_nonneg buffer
        · simp only [splitOnNL_length]
          push_cast
          omega

/-- Claim C7: the insertion locator is total and safe — for any buffer and
step it returns a non-negative integer, it returns 0 on the empty buffer,
and the anchor search (`indexOf`) finds the leftmost occurrence of its
literal pattern. -/
theorem locator_total_and_leftmost (buffer : List Char) (step : LearnerStep)
    (pat : List Char) (i : Nat) (h : indexOf? pat buffer = some i) :
    0 ≤ getInsertionLineIndex buffer step ∧
      getInsertionLineIndex [] step = 0 ∧
      occursAt pat buffer i = true ∧
      ∀ j, j < i → occursAt pat buffer j = false := by
  obtain ⟨h1, h2⟩ := indexOf?_leftmost pat buffer i h
  exact ⟨getInsertionLineIndex_nonneg buffer step, by simp [getInsertionLineIndex], h1, h2⟩

theorem locator_total_and_leftmost_witness :
    indexOf? "b".data "ab".data = some 1 ∧
      0 ≤ getInsertionLineIndex "ab".data
        { code := "x".data, explanation := [], context := none } :=
  ⟨by decide,
    (locator_total_and_leftmost "ab".data
      { code := "x".data, explanation := [], context := none }
      "b".data 1 (by decide)).1⟩

/-- Claim C4, counterexample: with buffer `"abc\ndef"` and a step whose
context is `"abc"` (trimmed context found at leftmost offset 0), the locator
returns 1, not the claim's "count of newline characters in
`buffer[0 .. idx + len(trimmed context)]`", which is 0 here: the source
returns `slice.split('\n').length` (newline count plus one). -/
theorem locator_context_line_counterexample :
    getInsertionLineIndex "abc\ndef".data
        { code := "x".data, explanation := [], context := some "abc".data } ≠
      (countNL (("abc\ndef".data).take (0 + (trim "abc".data).length)) : Int) ∧
      indexOf? (trim "abc".data) "abc\ndef".data = some 0 ∧
      getInsertionLineIndex "abc\ndef".data
        { code := "x".data, explanation := [], context := some "abc".data } = 1 ∧
      (countNL (("abc\ndef".data).take (0 + (trim "abc".data).length)) : Int) = 0 := by
  refine ⟨?_, by decide, by decide, by decide⟩
  decide

/-- Claim C4 as amended: for a non-empty buffer, when the step's context is
present and non-empty and its trimmed text occurs at leftmost offset `idx`,
the result is the count of newlines in
`buffer[0 .. idx + len(untrimmed context)]` **plus one** (the slice is
clamped at the buffer end); when the context branch does not apply and the
sentinel occurs at offset `m`, the result is the count of newlines in
`buffer[0 .. m]`; otherwise the result is the total number of lines
(newline count plus one) of the buffer. -/
theorem locator_branch_values (buffer : List Char) (step : LearnerStep)
    (hb : buffer ≠ []) :
    (∀ ctx idx, step.context = some ctx → ctx ≠ [] →
        indexOf? (trim ctx) buffer = some idx →
        getInsertionLineIndex buffer step =
          (countNL (buffer.take (idx + ctx.length)) : Int) + 1) ∧
      (ctxApplies buffer step.context = false →
        ∀ m, indexOf? INSERTION_MARKER buffer = some m →
          getInsertionLineIndex buffer step = (countNL (buffer.take m) : Int)) ∧
      (ctxApplies buffer step.context = false →
        indexOf? INSERTION_MARKER buffer = none →
          getInsertionLineIndex buffer step = (countNL buffer : Int) + 1) := by
  have hbe : buffer.isEmpty = false := by
    cases buffer with
    | nil => exact absurd rfl hb
    | cons c t => rfl
  have hmarker_some : ∀ m, indexOf? INSERTION_MARKER buffer = some m →
      markerOrDefault buffer = (countNL (buffer.take m) : Int) := by
    intro m hm
    unfold markerOrDefault
    rw [hm]
    simp only [splitOnNL_length]
    push_cast
    omega
  have hmarker_none : indexOf? INSERTION_MARKER buffer = none →
      markerOrDefault buffer = (countNL buffer : Int) + 1 := by
    intro hm
    unfold markerOrDefault
    rw [hm]
    simp only [splitOnNL_length]
    push_cast
    omega
  refine ⟨?_, ?_, ?_⟩
  · rintro ctx idx hctx hne hidx
    have hce : ctx.isEmpty = false := by
      cases ctx with
      | nil => exact absurd rfl hne
      | cons c t => rfl
    rw [getInsertionLineIndex, hbe]
    simp only [Bool.false_eq_true, if_false, hctx, hce, Bool.not_false, if_true, hidx,
      splitOnNL_length]
    push_cast
    omega
  · intro hap m hm
    rw [getInsertionLineIndex, hbe]
    simp only [Bool.false_eq_true, if_false]
    cases hctx : step.context with
    | none => exact hmarker_some m hm
    | some ctx =>
      rw [hctx] at hap
      by_cases hce : ctx.isEmpty = true
      · simp only [hce, Bool.not_true, Bool.false_eq_true, if_false]
        exact hmarker_some m hm
      · have hce' : ctx.isEmpty = false := by simpa using hce
        rcases hio : indexOf? (trim ctx) buffer with _ | idx
        · simp only [hce', Bool.not_false, if_true, hio]
          exact hmarker_some m hm
        · exfalso
          simp [ctxApplies, hce', hio] at hap
  · intro hap hm
    rw [getInsertionLineIndex, hbe]
    simp only [Bool.false_eq_true, if_false]
    cases hctx : step.context with
    | none => exact hmarker_none hm
    | some ctx =>
      rw [hctx] at hap
      by_cases hce : ctx.isEmpty = true
      · simp only [hce, Bool.not_true, Bool.false_eq_true, if_false]
        exact hmarker_none hm
      · have hce' : ctx.isEmpty = false := by simpa using hce
        rcases hio : indexOf? (trim ctx) buffer with _ | idx
        · simp only [hce', Bool.not_false, if_true, hio]
          exact hmarker_none hm
        · exfalso
          simp [ctxApplies, hce', hio] at hap

theorem locator_branch_values_witness :
    ("a\nb".data ≠ ([] : List Char)) ∧
      getInsertionLineIndex "a\nb".data
          { code := "x".data, explanation := [], context := some "a".data } =
        (countNL (("a\nb".data).take (0 + ("a".data).length)) : Int) + 1 :=
  ⟨by decide,
    (locator_branch_values "a\nb".data
        { code := "x".data, explanation := [], context := some "a".data }
        (by decide)).1 "a".data 0 rfl (by decide) (by decide)⟩

theorem evalBuffer_of_terminal (steps : List LearnerStep) (idx : Nat)
    (b : List Char) (h : steps.length ≤ idx) :
    evalBuffer steps idx b =
      { index := idx, advanced := false, completed := false } := by
  unfold evalBuffer
  rw [dif_neg (by omega)]

theorem evalBuffer_of_hit (steps : List LearnerStep) (idx : Nat) (b : List Char)
    (h : idx < steps.length)
    (hc : includes (normalize b) (normalize (steps.get ⟨idx, h⟩).code) = true) :
    evalBuffer steps idx b =
      { index := idx + 1, advanced := true,
        completed := decide (steps.length ≤ idx + 1) } := by
  unfold evalBuffer
  rw [dif_pos h]
  simp only [hc, if_true]

theorem evalBuffer_of_miss (steps : List LearnerStep) (idx : Nat) (b : List Char)
    (h : idx < steps.length)
    (hc : includes (normalize b) (normalize (steps.get ⟨idx, h⟩).code) = false) :
    evalBuffer steps idx b =
      { index := idx, advanced := false, completed := false } := by
  unfold evalBuffer
  rw [dif_pos h]
  simp only [hc, Bool.false_eq_true, if_false]

theorem evalBuffer_index_cases (steps : List LearnerStep) (idx : Nat)
    (b : List Char) :
    evalBuffer steps idx b = { index := idx, advanced := false, completed := false } ∨
      (idx < steps.length ∧
        evalBuffer steps idx b =
          { index := idx + 1, advanced := true,
            completed := decide (steps.length ≤ idx + 1) }) := by
  by_cases h : idx < steps.length
  · cases hc : includes (normalize b) (normalize (steps.get ⟨idx, h⟩).code) with
    | false => exact Or.inl (evalBuffer_of_miss steps idx b h hc)
    | true => exact Or.inr ⟨h, evalBuffer_of_hit steps idx b h hc⟩
  · exact Or.inl (evalBuffer_of_terminal steps idx b (by omega))

theorem evalBuffer_mono (steps : List LearnerStep) (idx : Nat) (b : List Char) :
    idx ≤ (evalBuffer steps idx b).index := by
  rcases evalBuffer_index_cases steps idx b with h | ⟨_, h⟩ <;> simp [h]

theorem evalBuffer_le_succ (steps : List LearnerStep) (idx : Nat) (b : List Char) :
    (evalBuffer steps idx b).index ≤ idx + 1 := by
  rcases evalBuffer_index_cases steps idx b with h | ⟨_, h⟩ <;> simp [h]

theorem evalBuffer_le_length (steps : List LearnerStep) (idx : Nat) (b : List Char)
    (h : idx ≤ steps.length) : (evalBuffer steps idx b).index ≤ steps.length := by
  rcases evalBuffer_index_cases steps idx b with h' | ⟨hlt, h'⟩ <;> simp [h'] <;> omega

theorem runEval_mono (steps : List LearnerStep) (bufs : List (List Char)) :
    ∀ idx : Nat, idx ≤ runEval steps idx bufs := by
  induction bufs with
  | nil => intro idx; simp [runEval]
  | cons b bs ih =>
    intro idx
    simp only [runEval]
    exact le_trans (evalBuffer_mono steps idx b) (ih _)

theorem runEval_le (steps : List LearnerStep) (bufs : List (List Char)) :
    ∀ idx : Nat, runEval steps idx bufs ≤ idx + bufs.length := by
  induction bufs with
  | nil => intro idx; simp [runEval]
  | cons b bs ih =>
    intro idx
    simp only [runEval, List.length_cons]
    have h1 := evalBuffer_le_succ steps idx b
    have h2 := ih (evalBuffer steps idx b).index
    omega

theorem runEval_terminal (steps : List LearnerStep) (bufs : List (List Char)) :
    ∀ idx : Nat, steps.length ≤ idx → runEval steps idx bufs = idx := by
  induction bufs with
  | nil => intro idx _; simp [runEval]
  | cons b bs ih =>
    intro idx h
    simp only [runEval]
    rw [evalBuffer_of_terminal steps idx b h]
    exact ih idx h

theorem runCompletions_terminal (steps : List LearnerStep) (bufs : List (List Char)) :
    ∀ idx : Nat, steps.length ≤ idx → runCompletions steps idx bufs = 0 := by
  induction bufs with
  | nil => intro idx _; simp [runCompletions]
  | cons b bs ih =>
    intro idx h
    simp only [runCompletions]
    rw [evalBuffer_of_terminal steps idx b h]
    simp only [Bool.false_eq_true, if_false]
    rw [ih idx h]

/-- Claim C1: in every non-terminal state, a buffer-change evaluation moves
the index to `idx + 1` iff the normalized buffer contains the normalized
code of the current step as a substring, and leaves the index unchanged
when containment fails. -/
theorem advance_iff_contains (steps : List LearnerStep) (idx : Nat)
    (buffer : List Char) (h : idx < steps.length) :
    ((evalBuffer steps idx buffer).index = idx + 1 ↔
        includes (normalize buffer) (normalize (steps.get ⟨idx, h⟩).code) = true) ∧
      (includes (normalize buffer) (normalize (steps.get ⟨idx, h⟩).code) = false →
        (evalBuffer steps idx buffer).index = idx) := by
  cases hc : includes (normalize buffer) (normalize (steps.get ⟨idx, h⟩).code) with
  | false =>
    rw [evalBuffer_of_miss steps idx buffer h hc]
    constructor
    · simp
    · intro
      rfl
  | true =>
    rw [evalBuffer_of_hit steps idx buffer h hc]
    constructor
    · simp
    · intro hf
      exact absurd hf (by simp)

theorem advance_iff_contains_witness :
    (0 < ([{ code := "ab".data, explanation := [], context := none }] :
        List LearnerStep).length) ∧
      (evalBuffer [{ code := "ab".data, explanation := [], context := none }]
          0 "a b".data).index = 0 + 1 :=
  ⟨by decide,
    (advance_iff_contains
        [{ code := "ab".data, explanation := [], context := none }]
        0 "a b".data (by decide)).1.mpr (by decide)⟩

/-- Claim C5: the step index is non-decreasing — a single buffer-change
evaluation never lowers it, and neither does any sequence of evaluations
with a fixed step list, however the buffer is edited. -/
theorem index_nondecreasing (steps : List LearnerStep) (idx : Nat)
    (buffer : List Char) (bufs : List (List Char)) :
    idx ≤ (evalBuffer steps idx buffer).index ∧
      idx ≤ runEval steps idx bufs :=
  ⟨evalBuffer_mono steps idx buffer, runEval_mono steps bufs idx⟩

/-- Claim C10: one buffer-change evaluation advances the index by at most
one, so a sequence of evaluations can raise it by at most the number of
evaluations — even a buffer already containing several upcoming steps
advances a single step per event. -/
theorem at_most_one_step_per_evaluation (steps : List LearnerStep) (idx : Nat)
    (buffer : List Char) (bufs : List (List Char)) :
    (evalBuffer steps idx buffer).index ≤ idx + 1 ∧
      runEval steps idx bufs ≤ idx + bufs.length :=
  ⟨evalBuffer_le_succ steps idx buffer, runEval_le steps bufs idx⟩

theorem evalBuffer_completed_iff (steps : List LearnerStep) (idx : Nat)
    (b : List Char) :
    (evalBuffer steps idx b).completed = true ↔
      ((evalBuffer steps idx b).index = idx + 1 ∧ steps.length = idx + 1) := by
  rcases evalBuffer_index_cases steps idx b with h | ⟨hlt, h⟩ <;> rw [h]
  · simp
  · simp only [decide_eq_true_eq, true_and]
    omega

theorem runCompletions_eq (steps : List LearnerStep) (bufs : List (List Char)) :
    ∀ idx : Nat, idx ≤ steps.length →
      runCompletions steps idx bufs =
        (if idx < steps.length ∧ runEval steps idx bufs = steps.length
          then 1 else 0) := by
  induction bufs with
  | nil =>
    intro idx h
    simp only [runCompletions, runEval]
    rw [if_neg]
    omega
  | cons b bs ih =>
    intro idx h
    simp only [runCompletions, runEval]
    rcases Nat.lt_or_ge idx steps.length with hlt | hge
    · rcases evalBuffer_index_cases steps idx b with hev | ⟨_, hev⟩
      · simp only [hev, Bool.false_eq_true, if_false, Nat.zero_add]
        exact ih idx h
      · by_cases hN : steps.length = idx + 1
        · have hc2 : decide (steps.length ≤ idx + 1) = true := by
            simp only [decide_eq_true_eq]
            omega
          simp only [hev, hc2, if_true, Nat.add_zero]
          rw [runCompletions_terminal steps bs (idx + 1) (by omega)]
          simp only [runEval_terminal steps bs (idx + 1) (by omega)]
          rw [if_pos ⟨hlt, by omega⟩]
        · have hc2 : decide (steps.length ≤ idx + 1) = false := by
            simp only [decide_eq_false_iff_not]
            omega
          simp only [hev, hc2, Bool.false_eq_true, if_false, Nat.zero_add]
          rw [ih (idx + 1) (by omega)]
          have hlt1 : idx + 1 < steps.length := by omega
          simp [hlt, hlt1]
    · simp only [evalBuffer_of_terminal steps idx b hge, Bool.false_eq_true,
        if_false, Nat.zero_add]
      rw [runCompletions_terminal steps bs idx hge]
      simp only [runEval_terminal steps bs idx hge]
      rw [if_neg]
      omega

/-- Claim C6: once the index equals the number of steps, every further
evaluation leaves it unchanged and fires no event; across any evaluation
sequence started at an index of at most the step count, the terminal
completion event fires exactly once when the run reaches the step count
from below, and never otherwise. -/
theorem terminal_stable_and_complete_once (steps : List LearnerStep)
    (idx0 : Nat) (buffer : List Char) (bufs : List (List Char))
    (h0 : idx0 ≤ steps.length) :
    evalBuffer steps steps.length buffer =
        { index := steps.length, advanced := false, completed := false } ∧
      runCompletions steps idx0 bufs =
        (if idx0 < steps.length ∧ runEval steps idx0 bufs = steps.length
          then 1 else 0) :=
  ⟨evalBuffer_of_terminal steps steps.length buffer (le_refl _),
    runCompletions_eq steps bufs idx0 h0⟩

theorem terminal_stable_and_complete_once_witness :
    (0 ≤ ([{ code := "ab".data, explanation := [], context := none }] :
        List LearnerStep).length) ∧
      runCompletions [{ code := "ab".data, explanation := [], context := none }]
          0 ["a b".data, "a b".data] = 1 :=
  ⟨by decide, by
    have h := (terminal_stable_and_complete_once
        [{ code := "ab".data, explanation := [], context := none }]
        0 [] ["a b".data, "a b".data] (by decide)).2
    rw [h]
    decide⟩
